import Mathlib

/-!
# zdns I/O handlers: file and rabbitmq adapters

A shallow embedding of `iohandlers/file/file.go` and
`iohandlers/rabbitmq/rabbitmq.go`.

* A Go `string` / `[]byte` carrying data (file contents, delivery bodies,
  result lines) is a list of bytes, `Bytes := List Nat`; the byte values Go
  can produce are those below 256.
* Paths, configuration strings and log messages are Lean `String`s; the code
  only compares and concatenates them.
* A handler run is modelled by the sequence of observable events it issues
  (`Event`): channel sends, `close(in)`, `wg.Done()`, acknowledgements,
  `conn.Close()` and `log.Fatal`, which ends the process.
* A receive-only Go channel that is eventually closed is the finite list of
  values received from it before the close.
-/

namespace zdns

/-- A Go byte string. -/
abbrev Bytes := List Nat

/-- The bytes of an ASCII literal. -/
def ascii (s : String) : Bytes := s.data.map Char.toNat

/-- A value sent on `chan<- interface{}`: a Go string or a zone-file token. -/
inductive Item (τ : Type) where
  | str (s : Bytes)
  | token (t : τ)
  deriving DecidableEq, Repr

/-- Observable events of a handler run. -/
inductive Event (τ : Type) where
  /-- Models `in <- x` -/
  | send (x : Item τ)
  /-- Models `close(in)` -/
  | close
  /-- Models `(*wg).Done()` -/
  | done
  /-- Models `delivery.Ack(multiple)` on the delivery with the given tag -/
  | ack (tag : Nat) (multiple : Bool)
  /-- Models `h.conn.Close()` -/
  | connClose
  /-- Models `log.Fatal(msg, err)`: logs and exits the process -/
  | fatal (msg : String) (err : String)
  deriving DecidableEq, Repr

namespace Event

variable {τ : Type}

def isSend : Event τ → Bool
  | send _ => true
  | _ => false

def isClose : Event τ → Bool
  | close => true
  | _ => false

def isDone : Event τ → Bool
  | done => true
  | _ => false

def isAck : Event τ → Bool
  | ack _ _ => true
  | _ => false

def isFatal : Event τ → Bool
  | fatal _ _ => true
  | _ => false

end Event

/-- The items sent to the channel during a run, in order. -/
def sent {τ : Type} : List (Event τ) → List (Item τ)
  | [] => []
  | Event.send x :: es => x :: sent es
  | _ :: es => sent es

/-- The acknowledgements issued during a run, in order: (delivery tag, multiple). -/
def acks {τ : Type} : List (Event τ) → List (Nat × Bool)
  | [] => []
  | Event.ack t m :: es => (t, m) :: acks es
  | _ :: es => acks es

/-- Number of `close(in)` events in a run. -/
def closes {τ : Type} (tr : List (Event τ)) : Nat := tr.countP Event.isClose

/-- Number of `wg.Done()` events in a run. -/
def dones {τ : Type} (tr : List (Event τ)) : Nat := tr.countP Event.isDone

/-- The run was ended by `log.Fatal`. -/
def aborted {τ : Type} (tr : List (Event τ)) : Bool := tr.any Event.isFatal

/-- No send to the channel occurs after a close of the channel. -/
def NoSendAfterClose {τ : Type} (tr : List (Event τ)) : Prop :=
  ∀ pre post, tr = pre ++ Event.close :: post → ∀ e ∈ post, e.isSend = false

/-! ## `unicode/utf8` and `unicode` -/

namespace utf8

def RuneError : Nat := 0xFFFD
def RuneSelf : Nat := 0x80

/-- The `first` table together with `acceptRanges`: for a leading byte of a
multi-byte sequence, the sequence length and the accepted range of the
second byte; `none` for an invalid leading byte (`xx`). -/
def first (s0 : Nat) : Option (Nat × Nat × Nat) :=
  if 0xC2 ≤ s0 ∧ s0 ≤ 0xDF then some (2, 0x80, 0xBF)
  else if s0 = 0xE0 then some (3, 0xA0, 0xBF)
  else if 0xE1 ≤ s0 ∧ s0 ≤ 0xEC then some (3, 0x80, 0xBF)
  else if s0 = 0xED then some (3, 0x80, 0x9F)
  else if 0xEE ≤ s0 ∧ s0 ≤ 0xEF then some (3, 0x80, 0xBF)
  else if s0 = 0xF0 then some (4, 0x90, 0xBF)
  else if 0xF1 ≤ s0 ∧ s0 ≤ 0xF3 then some (4, 0x80, 0xBF)
  else if s0 = 0xF4 then some (4, 0x80, 0x8F)
  else none

/-- Models `locb ≤ b ≤ hicb` -/
def isCont (b : Nat) : Bool := 0x80 ≤ b && b ≤ 0xBF

/-- Models `utf8.DecodeRuneInString`: the first rune of `s` and its width in bytes;
`(RuneError, 0)` on the empty string and `(RuneError, 1)` on an invalid
encoding. -/
def DecodeRuneInString (s : Bytes) : Nat × Nat :=
  match s with
  | [] => (RuneError, 0)
  | s0 :: t =>
    if s0 < RuneSelf then (s0, 1)
    else
      match first s0 with
      | none => (RuneError, 1)
      | some (sz, lo, hi) =>
        if t.length + 1 < sz then (RuneError, 1)
        else
          match t with
          | [] => (RuneError, 1)
          | s1 :: t1 =>
            if s1 < lo ∨ hi < s1 then (RuneError, 1)
            else if sz ≤ 2 then ((s0 % 0x20) * 0x40 + s1 % 0x40, 2)
            else
              match t1 with
              | [] => (RuneError, 1)
              | s2 :: t2 =>
                if ¬ isCont s2 then (RuneError, 1)
                else if sz ≤ 3 then
                  ((s0 % 0x10) * 0x1000 + (s1 % 0x40) * 0x40 + s2 % 0x40, 3)
                else
                  match t2 with
                  | [] => (RuneError, 1)
                  | s3 :: _ =>
                    if ¬ isCont s3 then (RuneError, 1)
                    else
                      ((s0 % 0x08) * 0x40000 + (s1 % 0x40) * 0x1000
                        + (s2 % 0x40) * 0x40 + s3 % 0x40, 4)

/-- The iteration `for _, r := range s` over a Go string: each rune with the
bytes it was decoded from. The first argument bounds the number of runes;
`s.length` always suffices because every step consumes at least one byte. -/
def decodeAll : Nat → Bytes → List (Nat × Bytes)
  | 0, _ => []
  | _, [] => []
  | n + 1, b :: t =>
    let w := (DecodeRuneInString (b :: t)).2
    ((DecodeRuneInString (b :: t)).1, (b :: t).take w) :: decodeAll n ((b :: t).drop w)

/-- The runes of `s` in order, each with its encoding. -/
def runes (s : Bytes) : List (Nat × Bytes) := decodeAll s.length s

end utf8

namespace unicode

/-- Models `unicode.IsSpace`: the Latin-1 spaces and the `White_Space` range table. -/
def IsSpace (r : Nat) : Bool :=
  if r ≤ 0xFF then
    r = 0x09 || r = 0x0A || r = 0x0B || r = 0x0C || r = 0x0D || r = 0x20
      || r = 0x85 || r = 0xA0
  else
    r = 0x1680 || (0x2000 ≤ r && r ≤ 0x200A) || r = 0x2028 || r = 0x2029
      || r = 0x202F || r = 0x205F || r = 0x3000

/-- No rune of `x` is white space. -/
def NoSpace (x : Bytes) : Prop := ∀ c ∈ utf8.runes x, IsSpace c.1 = false

/-- Every rune of `x` is white space; holds for the empty string. -/
def AllSpace (x : Bytes) : Prop := ∀ c ∈ utf8.runes x, IsSpace c.1 = true

end unicode

/-! ## `strings.Fields` -/

namespace strings

/-- The `asciiSpace` table. -/
def asciiSpace (b : Nat) : Bool :=
  b = 0x09 || b = 0x0A || b = 0x0B || b = 0x0C || b = 0x0D || b = 0x20

/-- The scanning loop of `FieldsFunc`: `cur` is the field being built
(`none` when `start < 0`). A rune satisfying `f` ends the current field;
any other rune starts or extends one; the end of the string ends an open
field. -/
def fieldsLoop (f : Nat → Bool) : Option Bytes → List (Nat × Bytes) → List Bytes
  | none, [] => []
  | some acc, [] => [acc]
  | none, (r, bs) :: rest =>
    if f r then fieldsLoop f none rest else fieldsLoop f (some bs) rest
  | some acc, (r, bs) :: rest =>
    if f r then acc :: fieldsLoop f none rest else fieldsLoop f (some (acc ++ bs)) rest

/-- Models `strings.FieldsFunc(s, f)` -/
def FieldsFunc (s : Bytes) (f : Nat → Bool) : List Bytes :=
  fieldsLoop f none (utf8.runes s)

/-- The ASCII fast path of `strings.Fields`: the same scan, byte by byte,
with the `asciiSpace` table. -/
def fieldsASCII : Option Bytes → Bytes → List Bytes
  | none, [] => []
  | some acc, [] => [acc]
  | none, b :: rest =>
    if asciiSpace b then fieldsASCII none rest else fieldsASCII (some [b]) rest
  | some acc, b :: rest =>
    if asciiSpace b then acc :: fieldsASCII none rest
    else fieldsASCII (some (acc ++ [b])) rest

/-- Models `strings.Fields(s)`: splits `s` around runs of white space
(`unicode.IsSpace`); the result is empty if `s` contains only white space.
A string with a byte at or above `utf8.RuneSelf` goes through `FieldsFunc`. -/
def Fields (s : Bytes) : List Bytes :=
  if s.any (fun b => utf8.RuneSelf ≤ b) then FieldsFunc s unicode.IsSpace
  else fieldsASCII none s

/-- The white-space-delimited tokens of `s` in the spec's words: the runes of
`s` are split at every white-space rune; the non-empty pieces, each turned
back into its bytes, are the tokens, in the order of `s`. -/
def whitespaceTokens (s : Bytes) : List Bytes :=
  (((utf8.runes s).splitOnP (fun c => unicode.IsSpace c.1)).filter
    (fun run => !run.isEmpty)).map (fun run => run.flatMap Prod.snd)

/-- The white-space-delimited tokens of an ASCII string: the bytes are split
at every tab, line feed, vertical tab, form feed, carriage return and space;
the non-empty pieces are the tokens. -/
def asciiTokens (s : Bytes) : List Bytes :=
  (s.splitOnP asciiSpace).filter (fun run => !run.isEmpty)

end strings

/-! ## `iohandlers/rabbitmq` -/

namespace rabbitmq

/-- The fields of `amqp.Delivery` the handler uses. -/
structure Delivery where
  DeliveryTag : Nat
  Body : Bytes
  deriving DecidableEq, Repr

/-- The `InputHandler` after `Initialize`: `domains` is the stream of
deliveries received from the consume channel until the broker closes it. -/
structure InputHandler where
  domains : List Delivery

/-- The body of `for delivery := range h.domains`. -/
def feedLoop {τ : Type} : List Delivery → List (Event τ)
  | [] => []
  | delivery :: rest =>
    Event.ack delivery.DeliveryTag false
      :: ((strings.Fields delivery.Body).map (fun domain => Event.send (Item.str domain))
          ++ feedLoop rest)

/-- Models `InputHandler.FeedChannel` -/
def FeedChannel {τ : Type} (h : InputHandler) : List (Event τ) :=
  feedLoop h.domains ++ [Event.close, Event.connClose, Event.done]

/-- Number of tokens in the bodies of the first `i` deliveries. -/
def tokensBefore (ds : List Delivery) (i : Nat) : Nat :=
  ((ds.take i).map (fun d => (strings.Fields d.Body).length)).sum

/-- Acknowledge-after-enqueue on a run `tr` over the deliveries `ds`: at
every point of the run (after the first `k` events), if the delivery at
position `i` is already acknowledged then all tokens of the deliveries up to
and including it have been sent. -/
def AckAfterEnqueue {τ : Type} (ds : List Delivery) (tr : List (Event τ)) : Prop :=
  ∀ k i, i < ds.length → i < (acks (tr.take k)).length →
    tokensBefore ds (i + 1) ≤ (sent (tr.take k)).length

/-- Acknowledge-on-receipt on a run `tr` over the deliveries `ds`. For every
delivery `d` of the stream, with the deliveries `before` it and `after` it, the
run holds the single-message acknowledgement of `d` (its own tag,
`multiple = false`) directly followed by the sends of the white-space-delimited
tokens of its body, in order; before that acknowledgement the run holds exactly
the acknowledgements and the tokens of the deliveries `before`, after the
tokens of `d` exactly those of the deliveries `after`. Moreover, at every point
of the run, if a token of the delivery at position `i` (or of a later one) has
been sent then that delivery is already acknowledged, and if it is acknowledged
then all tokens of the earlier deliveries have been sent. -/
def AckOnReceipt {τ : Type} (ds : List Delivery) (tr : List (Event τ)) : Prop :=
  (∀ (before : List Delivery) (d : Delivery) (after : List Delivery),
    ds = before ++ d :: after →
    ∃ pre post : List (Event τ),
      tr = pre ++ Event.ack d.DeliveryTag false ::
          ((strings.whitespaceTokens d.Body).map (fun x => Event.send (Item.str x)) ++ post)
        ∧ acks pre = before.map (fun e => (e.DeliveryTag, false))
        ∧ sent pre = (before.flatMap (fun e => strings.whitespaceTokens e.Body)).map Item.str
        ∧ acks post = after.map (fun e => (e.DeliveryTag, false))
        ∧ sent post = (after.flatMap (fun e => strings.whitespaceTokens e.Body)).map Item.str)
  ∧ ∀ k i, i < ds.length →
    (tokensBefore ds i < (sent (tr.take k)).length → i < (acks (tr.take k)).length) ∧
    (i < (acks (tr.take k)).length → tokensBefore ds i ≤ (sent (tr.take k)).length)

/-! ### Configuration and connection set-up -/

def errMsg : String :=
  "this iohandler requires a config file with a username, password, ip address, qname, and qsize"

/-- The struct `rabbitmqConfig`; its default value is Go's zero value. -/
structure rabbitmqConfig where
  User : String := ""
  Pwd : String := ""
  Ip : String := ""
  Qname : String := ""
  Qsize : Int := 0
  Tls : Bool := false
  Certs : String := ""
  CAServer : String := ""
  deriving DecidableEq, Repr

/-- One field of `rabbitmqConfig` assigned by a key of the YAML document:
`Rabbitmq-Username`, `Rabbitmq-Password`, `Rabbitmq-IP`, `Rabbitmq-Qname`,
`Rabbitmq-Qsize`, `Rabbitmq-Tls`, `Rabbitmq-Certs`,
`Rabbitmq-CertificateAuthorityServer`. -/
inductive FieldValue where
  | User (s : String)
  | Pwd (s : String)
  | Ip (s : String)
  | Qname (s : String)
  | Qsize (n : Int)
  | Tls (b : Bool)
  | Certs (s : String)
  | CAServer (s : String)
  deriving DecidableEq, Repr

/-- Storing one decoded key into the struct. -/
def rabbitmqConfig.assign (c : rabbitmqConfig) : FieldValue → rabbitmqConfig
  | .User s => { c with User := s }
  | .Pwd s => { c with Pwd := s }
  | .Ip s => { c with Ip := s }
  | .Qname s => { c with Qname := s }
  | .Qsize n => { c with Qsize := n }
  | .Tls b => { c with Tls := b }
  | .Certs s => { c with Certs := s }
  | .CAServer s => { c with CAServer := s }

/-- The `tls.Config` fields the handler fills in. -/
structure TlsConfig where
  RootCAs : List Bytes := []
  ServerName : String := ""
  Certificates : List Bytes := []
  deriving DecidableEq, Repr

/-- The answers of the libraries the set-up code calls. -/
structure Env where
  /-- Models `ioutil.ReadFile(path)` -/
  ReadFile : String → Except String Bytes
  /-- Models `yaml.Unmarshal(data, c)`: the fields of `c` that the keys present in
  the document assign (matched by yaml tag), in document order, or the
  parse or type error. A field whose key is absent is not assigned. -/
  Unmarshal : Bytes → Except String (List FieldValue)
  /-- Models `tls.X509KeyPair(certPEMBlock, keyPEMBlock)` -/
  X509KeyPair : Bytes → Bytes → Except String Bytes
  /-- Models `amqp.Dial(url)` -/
  Dial : String → Except String Unit
  /-- Models `amqp.DialTLS(url, tlsCfg)` -/
  DialTLS : String → TlsConfig → Except String Unit
  /-- Models `conn.Channel()` -/
  Channel : Except String Unit
  /-- Models `channel.QueueDeclare(name, durable, autoDelete, exclusive, noWait, args)`
  with `args["x-max-length"]` as last argument; answers the queue name. -/
  QueueDeclare : String → Bool → Bool → Bool → Bool → Int → Except String String
  /-- Models `channel.Consume(queue, consumer, autoAck, exclusive, noLocal, noWait, nil)`;
  answers the deliveries the consume channel carries until it is closed. -/
  Consume : String → String → Bool → Bool → Bool → Bool → Except String (List Delivery)

/-- Calls to the outside world made during set-up, in order. -/
inductive Call where
  | readFile (path : String)
  | dial (url : String)
  | dialTLS (url : String) (cfg : TlsConfig)
  | channel
  | queueDeclare (name : String) (durable autoDelete exclusive noWait : Bool) (maxLength : Int)
  | qos (prefetchCount prefetchSize : Nat) (global : Bool)
  | consume (queue consumer : String) (autoAck exclusive noLocal noWait : Bool)
  | fatal (msg : String) (err : String)
  deriving DecidableEq, Repr

/-- A set-up step: the calls made and either the value returned or `none`
when `log.Fatal` ended the process (the fatal call is then the last call). -/
abbrev Step (α : Type) := List Call × Option α

/-- Models `rabbitmqConfig.readConfig` -/
def rabbitmqConfig.readConfig (env : Env) (c : rabbitmqConfig) (filepath : String) :
    Step rabbitmqConfig :=
  match env.ReadFile filepath with
  | .error err => ([.readFile filepath, .fatal errMsg err], none)
  | .ok data =>
    match env.Unmarshal data with
    | .error err =>
      ([.readFile filepath,
        .fatal "Data in rabbitmq config wasn't formatted correctly" err], none)
    | .ok fields => ([.readFile filepath], some (fields.foldl rabbitmqConfig.assign c))

/-- Models `tls.LoadX509KeyPair(certFile, keyFile)`: reads both files, then parses. -/
def LoadX509KeyPair (env : Env) (certFile keyFile : String) : List Call × Except String Bytes :=
  match env.ReadFile certFile with
  | .error err => ([.readFile certFile], .error err)
  | .ok certPEM =>
    match env.ReadFile keyFile with
    | .error err => ([.readFile certFile, .readFile keyFile], .error err)
    | .ok keyPEM => ([.readFile certFile, .readFile keyFile], env.X509KeyPair certPEM keyPEM)

/-- Models `rabbitmqConfig.getTlsConfig` -/
def rabbitmqConfig.getTlsConfig (env : Env) (c : rabbitmqConfig) : Step TlsConfig :=
  match env.ReadFile (c.Certs ++ "cacert.pem") with
  | .error err =>
    ([.readFile (c.Certs ++ "cacert.pem"),
      .fatal "cacert.pem in certs/ directory is required" err], none)
  | .ok ca =>
    match LoadX509KeyPair env (c.Certs ++ "cert.pem") (c.Certs ++ "key.pem") with
    | (calls, .error err) =>
      (.readFile (c.Certs ++ "cacert.pem") :: calls
        ++ [.fatal "cert.pem and key.pem required in certs directory" err], none)
    | (calls, .ok cert) =>
      (.readFile (c.Certs ++ "cacert.pem") :: calls,
        some { RootCAs := [ca], ServerName := c.CAServer, Certificates := [cert] })

/-- Models `rabbitmqConfig.getConnection`: the inner `none` is a fatal exit inside
`getTlsConfig`, the `Except` is the `error` the function returns. -/
def rabbitmqConfig.getConnection (env : Env) (c : rabbitmqConfig) : Step (Except String Unit) :=
  if c.Tls ≠ true then
    ([.dial ("amqp://" ++ c.User ++ ":" ++ c.Pwd ++ "@" ++ c.Ip)],
      some (env.Dial ("amqp://" ++ c.User ++ ":" ++ c.Pwd ++ "@" ++ c.Ip)))
  else
    match c.getTlsConfig env with
    | (calls, none) => (calls, none)
    | (calls, some tlsCfg) =>
      (calls ++ [.dialTLS ("amqps://" ++ c.User ++ ":" ++ c.Pwd ++ "@" ++ c.Ip) tlsCfg],
        some (env.DialTLS ("amqps://" ++ c.User ++ ":" ++ c.Pwd ++ "@" ++ c.Ip) tlsCfg))

/-- The part of `InputHandler.Initialize` after the connection is made. -/
def declareAndConsume (env : Env) (rabbitConf : rabbitmqConfig) : Step InputHandler :=
  match env.Channel with
  | .error err => ([.channel, .fatal "Failed to create a rabbitmq channel! " err], none)
  | .ok _ =>
    match env.QueueDeclare rabbitConf.Qname true false false false rabbitConf.Qsize with
    | .error err =>
      ([.channel, .queueDeclare rabbitConf.Qname true false false false rabbitConf.Qsize,
        .fatal "Failed to declare a queue! " err], none)
    | .ok qName =>
      match env.Consume qName "" false false false false with
      | .error err =>
        ([.channel, .queueDeclare rabbitConf.Qname true false false false rabbitConf.Qsize,
          .qos 300 0 false, .consume qName "" false false false false,
          .fatal "Failed to consume from channel! " err], none)
      | .ok domains =>
        ([.channel, .queueDeclare rabbitConf.Qname true false false false rabbitConf.Qsize,
          .qos 300 0 false, .consume qName "" false false false false],
          some { domains := domains })

/-- Models `InputHandler.Initialize`, with `conf.InputHandlerConfig` as argument. -/
def Initialize (env : Env) (InputHandlerConfig : String) : Step InputHandler :=
  match ({} : rabbitmqConfig).readConfig env InputHandlerConfig with
  | (calls, none) => (calls, none)
  | (calls, some rabbitConf) =>
    match rabbitConf.getConnection env with
    | (calls2, none) => (calls ++ calls2, none)
    | (calls2, some (.error err)) =>
      (calls ++ calls2 ++ [.fatal "Failed to connect to specified rabbitmq server! " err], none)
    | (calls2, some (.ok _)) =>
      match declareAndConsume env rabbitConf with
      | (calls3, r) => (calls ++ calls2 ++ calls3, r)

end rabbitmq

/-! ## `bufio.Scanner` with `bufio.ScanLines` -/

namespace bufio

/-- An `io.Reader` over a finite stream: the bytes it yields, then either
`io.EOF` (`err = none`) or a read error. -/
structure Reader where
  data : Bytes
  err : Option String := none
  deriving DecidableEq, Repr

def MaxScanTokenSize : Nat := 64 * 1024

def ErrTooLong : String := "bufio.Scanner: token too long"

/-- Models `dropCR`: drops a terminal carriage return from the data. -/
def dropCR (data : Bytes) : Bytes :=
  if data.getLast? = some 0x0D then data.dropLast else data

/-- The tokens successive `Scan()` calls deliver and the final `Err()`.
`line` holds the bytes of the current line read so far. A line feed ends the
token; a line that fills the buffer (`MaxScanTokenSize` bytes) without a line
feed stops the scan with `ErrTooLong`; at the end of the input (end of file
or read error) a non-empty unterminated last line is delivered. -/
def scanLoop (rerr : Option String) : Bytes → Bytes → List Bytes × Option String
  | line, [] => (if line = [] then [] else [dropCR line], rerr)
  | line, b :: rest =>
    if b = 0x0A then
      (dropCR line :: (scanLoop rerr [] rest).1, (scanLoop rerr [] rest).2)
    else if MaxScanTokenSize ≤ line.length + 1 then ([], some ErrTooLong)
    else scanLoop rerr (line ++ [b]) rest

/-- The run of a `bufio.NewScanner(r)`: all tokens and the value of `Err()`
(`none` for `nil`). -/
def scan (r : Reader) : List Bytes × Option String := scanLoop r.err [] r.data

end bufio

/-! ## `iohandlers/file` -/

namespace file

/-- The operating system and the zone parser as the file source sees them. -/
structure OS (τ : Type) where
  /-- Models `os.Stdin` -/
  Stdin : bufio.Reader
  /-- Models `os.Open(path)` -/
  Open : String → Except String bufio.Reader
  /-- Models `dns.ParseZone(r, origin, file)`: the tokens the returned channel
  carries before it is closed. -/
  ParseZone : bufio.Reader → String → String → List τ

structure InputHandler where
  filepath : String

/-- The first statement of `FeedChannel`: standard input for the empty path
and for `-`, the named file otherwise. -/
def InputHandler.openInput {τ : Type} (h : InputHandler) (os : OS τ) :
    Except String bufio.Reader :=
  if h.filepath = "" ∨ h.filepath = "-" then .ok os.Stdin else os.Open h.filepath

/-- Models `InputHandler.FeedChannel` -/
def InputHandler.FeedChannel {τ : Type} (h : InputHandler) (os : OS τ) (zonefileInput : Bool) :
    List (Event τ) :=
  match h.openInput os with
  | .error err => [Event.fatal "unable to open input file:" err]
  | .ok f =>
    if zonefileInput then
      (os.ParseZone f "." h.filepath).map (fun t => Event.send (Item.token t))
        ++ [Event.close, Event.done]
    else
      match bufio.scan f with
      | (lines, none) =>
        lines.map (fun text => Event.send (Item.str text)) ++ [Event.close, Event.done]
      | (lines, some err) =>
        lines.map (fun text => Event.send (Item.str text))
          ++ [Event.fatal "input unable to read file" err]

/-- The files and standard output as the file sink sees them. -/
structure World where
  /-- Contents of the existing regular files. -/
  files : String → Option Bytes
  /-- The error `os.OpenFile(path, O_WRONLY|O_CREATE, 0666)` reports, if any. -/
  openErr : String → Option String
  /-- Bytes written to `os.Stdout` so far. -/
  stdout : Bytes

structure OutputHandler where
  filepath : String

/-- A write of `d` at offset `off` into a file holding `c`. -/
def writeAt (c : Bytes) (off : Nat) (d : Bytes) : Bytes :=
  c.take off ++ List.replicate (off - c.length) 0 ++ d ++ c.drop (off + d.length)

/-- The loop `for n := range results` on a file opened without `O_APPEND`:
each `f.WriteString(n + "\n")` writes at the current offset and advances it. -/
def writeLoop : Bytes → Nat → List Bytes → Bytes × Nat
  | c, off, [] => (c, off)
  | c, off, n :: rest =>
    writeLoop (writeAt c off (n ++ [0x0A])) (off + (n ++ [0x0A]).length) rest

/-- The same loop on `os.Stdout`, a stream. -/
def writeStream : Bytes → List Bytes → Bytes
  | out, [] => out
  | out, n :: rest => writeStream (out ++ (n ++ [0x0A])) rest

/-- Models `OutputHandler.WriteResults`; `results` are the strings received before
the channel is closed. Writes on an open file are taken to succeed (the code
ignores the result of `WriteString`). -/
def OutputHandler.WriteResults {τ : Type} (h : OutputHandler) (w : World) (results : List Bytes) :
    World × List (Event τ) :=
  if h.filepath = "" ∨ h.filepath = "-" then
    ({ w with stdout := writeStream w.stdout results }, [Event.done])
  else
    match w.openErr h.filepath with
    | some err => (w, [Event.fatal "unable to open output file:" err])
    | none =>
      ({ w with
          files := fun p =>
            if p = h.filepath then
              some (writeLoop ((w.files h.filepath).getD []) 0 results).1
            else w.files p },
        [Event.done])

end file


/-! ## Concrete environments used in the examples -/

namespace examples

/-- One delivery with body `x.com y.com`. -/
def oneDelivery : rabbitmq.InputHandler :=
  { domains := [{ DeliveryTag := 1, Body := ascii "x.com y.com" }] }

/-- A system in which no file can be opened; standard input is empty. -/
def noFiles : file.OS Unit :=
  { Stdin := { data := [] }
    Open := fun _ => .error "open missing.txt: no such file or directory"
    ParseZone := fun _ _ _ => [] }

/-- Standard input carries the two lines `a.com` and `b.com`. -/
def twoLines : file.OS Unit :=
  { Stdin := { data := ascii "a.com\nb.com\n" }
    Open := fun _ => .error "no such file or directory"
    ParseZone := fun _ _ _ => [] }

/-- Standard input carries the line `a.com` followed by a carriage return,
terminated by a line feed. -/
def crLine : file.OS Unit :=
  { Stdin := { data := ascii "a.com\r\n" }
    Open := fun _ => .error "no such file or directory"
    ParseZone := fun _ _ _ => [] }

/-- No file exists and every path can be created. -/
def emptyDisk : file.World :=
  { files := fun _ => none, openErr := fun _ => none, stdout := [] }

/-- The file `out.txt` exists and holds `0123456789`. -/
def usedDisk : file.World :=
  { files := fun p => if p = "out.txt" then some (ascii "0123456789") else none
    openErr := fun _ => none
    stdout := [] }

/-- No output file can be opened. -/
def readOnlyDisk : file.World :=
  { files := fun _ => none
    openErr := fun _ => some "open out.txt: permission denied"
    stdout := [] }

/-- The configuration file `rabbitmq.yaml` holds the single key
`Rabbitmq-Username: guest`; every other file reads as empty, every broker
call succeeds and the queue carries no delivery. -/
def userOnly : rabbitmq.Env :=
  { ReadFile := fun p =>
      if p = "rabbitmq.yaml" then .ok (ascii "Rabbitmq-Username: guest\n") else .ok []
    Unmarshal := fun data =>
      if data = ascii "Rabbitmq-Username: guest\n" then .ok [.User "guest"]
      else .error "yaml: unmarshal errors"
    X509KeyPair := fun _ _ => .ok []
    Dial := fun _ => .ok ()
    DialTLS := fun _ _ => .ok ()
    Channel := .ok ()
    QueueDeclare := fun name _ _ _ _ _ => .ok name
    Consume := fun _ _ _ _ _ _ => .ok [] }

/-- The directory `certs` holds `cacert.pem`, `cert.pem` and `key.pem`; no
other file exists. Every broker call succeeds. -/
def certsDir : rabbitmq.Env :=
  { ReadFile := fun p =>
      if p = "certs/cacert.pem" ∨ p = "certs/cert.pem" ∨ p = "certs/key.pem" then .ok []
      else .error ("open " ++ p ++ ": no such file or directory")
    Unmarshal := fun _ => .ok []
    X509KeyPair := fun _ _ => .ok []
    Dial := fun _ => .ok ()
    DialTLS := fun _ _ => .ok ()
    Channel := .ok ()
    QueueDeclare := fun name _ _ _ _ _ => .ok name
    Consume := fun _ _ _ _ _ _ => .ok [] }

/-- A configuration with TLS enabled and the certificate directory `certs`. -/
def tlsConf : rabbitmq.rabbitmqConfig :=
  { User := "guest", Pwd := "guest", Ip := "localhost", Qname := "q", Qsize := 10,
    Tls := true, Certs := "certs", CAServer := "ca" }

end examples


/-! ## Lemmas on UTF-8 decoding -/

namespace utf8

theorem decode_width (b : Nat) (t : Bytes) :
    1 ≤ (DecodeRuneInString (b :: t)).2 ∧ (DecodeRuneInString (b :: t)).2 ≤ t.length + 1 := by
  unfold DecodeRuneInString
  repeat' split
  all_goals simp_all

theorem first_size {s0 sz lo hi : Nat} (h : first s0 = some (sz, lo, hi)) :
    sz = 2 ∨ sz = 3 ∨ sz = 4 := by
  unfold first at h
  split_ifs at h <;> simp_all

/-- Decoding looks only at the bytes of the rune it yields: cutting the
string after them does not change the result. -/
theorem decode_truncate (a b : Bytes) (ha : a ≠ [])
    (hw : (DecodeRuneInString (a ++ b)).2 ≤ a.length) :
    DecodeRuneInString a = DecodeRuneInString (a ++ b) := by
  rcases a with _ | ⟨s0, a1⟩
  · exact absurd rfl ha
  by_cases h0 : s0 < RuneSelf
  · simp [DecodeRuneInString, h0]
  cases hf : first s0 with
  | none => simp [DecodeRuneInString, h0, hf]
  | some p =>
    obtain ⟨sz, lo, hi⟩ := p
    rcases first_size hf with rfl | rfl | rfl
    · rcases a1 with _ | ⟨s1, a2⟩
      · rcases b with _ | ⟨b1, b2⟩ <;> revert hw <;>
          simp [DecodeRuneInString, h0, hf] <;> split_ifs <;> simp
      · simp [DecodeRuneInString, h0, hf]
        split_ifs <;> first | rfl | omega
    · rcases a1 with _ | ⟨s1, _ | ⟨s2, a3⟩⟩
      · rcases b with _ | ⟨b1, _ | ⟨b2, b3⟩⟩ <;> revert hw <;>
          simp [DecodeRuneInString, h0, hf] <;> split_ifs <;> simp
      · rcases b with _ | ⟨b1, b2⟩ <;> revert hw <;>
          simp [DecodeRuneInString, h0, hf] <;> split_ifs <;> simp
      · simp [DecodeRuneInString, h0, hf]
        split_ifs <;> first | rfl | omega
    · rcases a1 with _ | ⟨s1, _ | ⟨s2, _ | ⟨s3, a4⟩⟩⟩
      · rcases b with _ | ⟨b1, _ | ⟨b2, _ | ⟨b3, b4⟩⟩⟩ <;> revert hw <;>
          simp [DecodeRuneInString, h0, hf] <;> split_ifs <;> simp
      · rcases b with _ | ⟨b1, _ | ⟨b2, b3⟩⟩ <;> revert hw <;>
          simp [DecodeRuneInString, h0, hf] <;> split_ifs <;> simp
      · rcases b with _ | ⟨b1, b2⟩ <;> revert hw <;>
          simp [DecodeRuneInString, h0, hf] <;> split_ifs <;> simp
      · simp [DecodeRuneInString, h0, hf]
        split_ifs <;> first | rfl | omega

theorem decodeAll_fuel (n m : Nat) (s : Bytes) (hn : s.length ≤ n) (hm : s.length ≤ m) :
    decodeAll n s = decodeAll m s := by
  induction n generalizing m s with
  | zero =>
    have : s = [] := List.length_eq_zero.mp (Nat.le_zero.mp hn)
    subst this
    cases m <;> rfl
  | succ n ih =>
    rcases s with _ | ⟨b, t⟩
    · cases m <;> rfl
    · rcases m with _ | m
      · simp at hm
      · have hw := decode_width b t
        simp only [decodeAll]
        congr 1
        apply ih
        · simp only [List.length_drop, List.length_cons] at hn ⊢; omega
        · simp only [List.length_drop, List.length_cons] at hm ⊢; omega

theorem runes_nil : runes [] = [] := rfl

theorem runes_cons (b : Nat) (t : Bytes) :
    runes (b :: t) =
      ((DecodeRuneInString (b :: t)).1, (b :: t).take (DecodeRuneInString (b :: t)).2)
        :: runes ((b :: t).drop (DecodeRuneInString (b :: t)).2) := by
  have hw := decode_width b t
  simp only [runes, List.length_cons, decodeAll]
  congr 1
  apply decodeAll_fuel
  · simp only [List.length_drop, List.length_cons]; omega
  · exact le_refl _

theorem runes_eq_nil {s : Bytes} (h : runes s = []) : s = [] := by
  rcases s with _ | ⟨b, t⟩
  · rfl
  · rw [runes_cons] at h; exact absurd h (List.cons_ne_nil _ _)

/-- The fuel of `decodeAll` is never exhausted: the encodings of the runes
of `s` make up `s`. -/
theorem runes_flatMap_le (n : Nat) (s : Bytes) (hn : s.length ≤ n) :
    (runes s).flatMap Prod.snd = s := by
  induction n generalizing s with
  | zero =>
    have : s = [] := List.length_eq_zero.mp (Nat.le_zero.mp hn)
    subst this; rfl
  | succ n ih =>
    rcases s with _ | ⟨b, t⟩
    · rfl
    · have hw := decode_width b t
      rw [runes_cons, List.flatMap_cons, ih]
      · exact List.take_append_drop _ _
      · simp only [List.length_drop, List.length_cons] at hn ⊢; omega

theorem runes_flatMap (s : Bytes) : (runes s).flatMap Prod.snd = s :=
  runes_flatMap_le s.length s (le_refl _)

/-- The runes of a leading part of a string that ends on a rune boundary are
the leading runes of the string. -/
theorem runes_leading (C D : List (Nat × Bytes)) (a b : Bytes)
    (h : runes (a ++ b) = C ++ D) (hC : C.flatMap Prod.snd = a) : runes a = C := by
  induction C generalizing a with
  | nil => simp at hC; subst hC; rfl
  | cons c C ih =>
    rcases hab : a ++ b with _ | ⟨x, xs⟩
    · rw [hab, runes_nil] at h; exact absurd h.symm (List.cons_ne_nil _ _)
    · rw [hab, runes_cons, List.cons_append, List.cons.injEq] at h
      obtain ⟨hc, hrest⟩ := h
      have hw := decode_width x xs
      rw [List.flatMap_cons] at hC
      have hc2 : c.2 = (a ++ b).take (DecodeRuneInString (a ++ b)).2 := by
        rw [hab, ← hc]
      have hlen : c.2.length = (DecodeRuneInString (a ++ b)).2 := by
        rw [hc2, List.length_take, hab, List.length_cons]; omega
      have hane : a ≠ [] := by
        intro h0
        rw [h0] at hC
        have : c.2 = [] := (List.append_eq_nil.mp hC).1
        rw [this] at hlen
        rw [hab] at hlen
        simp at hlen; omega
      have hwa : (DecodeRuneInString (a ++ b)).2 ≤ a.length := by
        rw [← hlen, ← hC, List.length_append]; omega
      have hdec := decode_truncate a b hane hwa
      have hdrop : (a ++ b).drop (DecodeRuneInString (a ++ b)).2 = C.flatMap Prod.snd ++ b := by
        rw [← hlen]
        conv_lhs => rw [← hC, List.append_assoc]
        exact List.drop_left _ _
      rw [hab] at hdrop
      rw [hdrop] at hrest
      have ihC := ih (C.flatMap Prod.snd) hrest rfl
      rcases a with _ | ⟨y, ys⟩
      · exact absurd rfl hane
      · rw [runes_cons, hdec]
        have htake : (y :: ys).take (DecodeRuneInString (y :: ys ++ b)).2 = c.2 := by
          rw [← hlen]
          conv_lhs => rw [← hC]
          exact List.take_left _ _
        have hdrop2 : (y :: ys).drop (DecodeRuneInString (y :: ys ++ b)).2 = C.flatMap Prod.snd := by
          rw [← hlen]
          conv_lhs => rw [← hC]
          exact List.drop_left _ _
        rw [htake, hdrop2, ihC]
        have hab2 : y :: ys ++ b = x :: xs := hab
        rw [hab2]
        subst hc
        rfl

end utf8


/-! ## Lemmas on `strings.Fields` -/

namespace strings

open utf8

theorem fieldsLoop_items (f : Nat → Bool) (R : List (Nat × Bytes)) :
    ∀ (cur : Option Bytes) (restBytes : Bytes), R = runes restBytes →
      (∀ acc, cur = some acc → acc ≠ [] ∧ ∃ C : List (Nat × Bytes),
        C.flatMap Prod.snd = acc ∧ (∀ c ∈ C, f c.1 = false) ∧
          runes (acc ++ restBytes) = C ++ R) →
      ∀ x ∈ fieldsLoop f cur R, x ≠ [] ∧ ∀ c ∈ runes x, f c.1 = false := by
  induction R with
  | nil =>
    intro cur restBytes hR hcur x hx
    have hrest : restBytes = [] := runes_eq_nil hR.symm
    subst hrest
    rcases cur with _ | acc
    · simp [fieldsLoop] at hx
    · simp only [fieldsLoop, List.mem_singleton] at hx
      subst hx
      obtain ⟨hne, C, _, hCf, hrun⟩ := hcur x rfl
      refine ⟨hne, ?_⟩
      rw [List.append_nil, List.append_nil] at hrun
      rw [hrun]; exact hCf
  | cons rb R ih =>
    intro cur restBytes hR hcur x hx
    obtain ⟨r, bs⟩ := rb
    rcases restBytes with _ | ⟨y, ys⟩
    · rw [runes_nil] at hR; exact absurd hR (List.cons_ne_nil _ _)
    have hw := decode_width y ys
    have hR0 := hR
    rw [runes_cons, List.cons.injEq, Prod.mk.injEq] at hR
    obtain ⟨⟨hr, hbs⟩, hR'⟩ := hR
    have hbsne : bs ≠ [] := by
      intro h0
      have : bs.length = 0 := by rw [h0]; rfl
      rw [hbs, List.length_take, List.length_cons] at this
      omega
    have hsplit : bs ++ (y :: ys).drop (DecodeRuneInString (y :: ys)).2 = y :: ys := by
      rw [hbs]; exact List.take_append_drop _ _
    rcases cur with _ | acc
    · by_cases hf : f r = true
      · simp only [fieldsLoop, hf, if_true] at hx
        exact ih none _ hR' (by intro acc h; cases h) x hx
      · simp only [fieldsLoop, hf] at hx
        refine ih (some bs) _ hR' ?_ x hx
        intro acc hacc
        cases hacc
        refine ⟨hbsne, [(r, bs)], by simp, ?_, ?_⟩
        · intro c hc
          simp only [List.mem_singleton] at hc
          subst hc
          simpa using hf
        · rw [hsplit, ← hR0]; rfl
    · obtain ⟨hne, C, hCacc, hCf, hrun⟩ := hcur acc rfl
      by_cases hf : f r = true
      · simp only [fieldsLoop, hf, if_true, List.mem_cons] at hx
        rcases hx with hx | hx
        · subst hx
          refine ⟨hne, ?_⟩
          rw [runes_leading C _ x _ hrun hCacc]
          exact hCf
        · exact ih none _ hR' (by intro acc h; cases h) x hx
      · simp only [fieldsLoop, hf] at hx
        refine ih (some (acc ++ bs)) _ hR' ?_ x hx
        intro acc2 hacc2
        cases hacc2
        refine ⟨by simp [hne], C ++ [(r, bs)], by simp [hCacc], ?_, ?_⟩
        · intro c hc
          rcases List.mem_append.mp hc with hc | hc
          · exact hCf c hc
          · simp only [List.mem_singleton] at hc
            subst hc
            simpa using hf
        · rw [List.append_assoc, hsplit, hrun]; simp

/-- Every field `FieldsFunc` yields is non-empty and none of its runes
satisfies the separator predicate. -/
theorem FieldsFunc_items (s : Bytes) (f : Nat → Bool) :
    ∀ x ∈ FieldsFunc s f, x ≠ [] ∧ ∀ c ∈ runes x, f c.1 = false :=
  fieldsLoop_items f (runes s) none s rfl (by intro acc h; cases h)

theorem fieldsLoop_all (f : Nat → Bool) (R : List (Nat × Bytes))
    (h : ∀ c ∈ R, f c.1 = true) : fieldsLoop f none R = [] := by
  induction R with
  | nil => rfl
  | cons rb R ih =>
    obtain ⟨r, bs⟩ := rb
    have hr : f r = true := h (r, bs) (List.mem_cons_self _ _)
    simp only [fieldsLoop, hr, if_true]
    exact ih (fun c hc => h c (List.mem_cons_of_mem _ hc))

theorem asciiSpace_eq_IsSpace (b : Nat) (hb : b < RuneSelf) :
    asciiSpace b = unicode.IsSpace b := by
  unfold RuneSelf at hb
  have h1 : b ≤ 0xFF := by omega
  have h2 : decide (b = 0x85) = false := by simp; omega
  have h3 : decide (b = 0xA0) = false := by simp; omega
  simp [asciiSpace, unicode.IsSpace, h1, h2, h3]

theorem runes_ascii (s : Bytes) (h : ∀ b ∈ s, b < RuneSelf) :
    runes s = s.map (fun b => (b, [b])) := by
  induction s with
  | nil => rfl
  | cons b t ih =>
    have hb : b < RuneSelf := h b (List.mem_cons_self _ _)
    have hd : DecodeRuneInString (b :: t) = (b, 1) := by
      simp [DecodeRuneInString, hb]
    rw [runes_cons, hd]
    simp only [List.take_succ_cons, List.take_zero, List.drop_succ_cons, List.drop_zero,
      List.map_cons]
    rw [ih (fun c hc => h c (List.mem_cons_of_mem _ hc))]

theorem fieldsASCII_eq (s : Bytes) (h : ∀ b ∈ s, b < RuneSelf) (cur : Option Bytes) :
    fieldsASCII cur s = fieldsLoop unicode.IsSpace cur (s.map (fun b => (b, [b]))) := by
  induction s generalizing cur with
  | nil => cases cur <;> rfl
  | cons b t ih =>
    have hb : b < RuneSelf := h b (List.mem_cons_self _ _)
    have ht := ih (fun c hc => h c (List.mem_cons_of_mem _ hc))
    rcases cur with _ | acc <;>
      simp only [fieldsASCII, fieldsLoop, List.map_cons, asciiSpace_eq_IsSpace b hb, ht]

/-- The ASCII fast path and the general path of `Fields` agree. -/
theorem Fields_eq_FieldsFunc (s : Bytes) : Fields s = FieldsFunc s unicode.IsSpace := by
  unfold Fields
  split
  · rfl
  · rename_i h
    have hs : ∀ b ∈ s, b < RuneSelf := by
      intro b hb
      by_contra hlt
      apply h
      simp only [List.any_eq_true, decide_eq_true_eq]
      exact ⟨b, hb, by omega⟩
    rw [FieldsFunc, runes_ascii s hs, fieldsASCII_eq s hs]

theorem fieldsLoop_splitOnP (f : Nat → Bool) (R : List (Nat × Bytes)) :
    ∀ A : List (Nat × Bytes),
      fieldsLoop f (if A.isEmpty then none else some (A.flatMap Prod.snd)) R
        = ((List.splitOnP.go (fun c => f c.1) R A.reverse).filter
            (fun run => !run.isEmpty)).map (fun run => run.flatMap Prod.snd) := by
  induction R with
  | nil =>
    intro A
    rcases A with _ | ⟨a, A⟩
    · simp [fieldsLoop, List.splitOnP.go]
    · simp [fieldsLoop, List.splitOnP.go]
  | cons rb R ih =>
    intro A
    obtain ⟨r, bs⟩ := rb
    by_cases hf : f r = true
    · have h0 := ih []
      simp only [List.isEmpty_nil, if_true, List.reverse_nil] at h0
      rcases A with _ | ⟨a, A⟩
      · simp [fieldsLoop, List.splitOnP.go, hf, h0]
      · simp [fieldsLoop, List.splitOnP.go, hf, h0]
    · have h1 := ih (A ++ [(r, bs)])
      simp only [List.isEmpty_eq_true, List.append_eq_nil, List.cons_ne_nil, and_false,
        if_false, List.reverse_append, List.reverse_cons, List.reverse_nil, List.nil_append,
        List.singleton_append, List.flatMap_append, List.flatMap_cons, List.flatMap_nil,
        List.append_nil] at h1
      rcases A with _ | ⟨a, A⟩
      · simp only [List.flatMap_nil, List.nil_append] at h1
        simp [fieldsLoop, List.splitOnP.go, hf, h1]
      · simp only [List.reverse_cons] at h1
        simp only [fieldsLoop, List.splitOnP.go, hf, List.reverse_cons, List.flatMap_cons,
          List.isEmpty_cons] at h1 ⊢
        simpa using h1

theorem FieldsFunc_eq_splitOnP (s : Bytes) :
    FieldsFunc s unicode.IsSpace = whitespaceTokens s := by
  have h := fieldsLoop_splitOnP unicode.IsSpace (utf8.runes s) []
  simpa [FieldsFunc, whitespaceTokens, List.splitOnP] using h

/-- The split `strings.Fields` computes is the split at white space. -/
theorem Fields_eq_whitespaceTokens (s : Bytes) : Fields s = whitespaceTokens s := by
  rw [Fields_eq_FieldsFunc, FieldsFunc_eq_splitOnP]

theorem fieldsASCII_splitOnP (s : Bytes) :
    ∀ A : Bytes,
      fieldsASCII (if A.isEmpty then none else some A) s
        = (List.splitOnP.go asciiSpace s A.reverse).filter (fun run => !run.isEmpty) := by
  induction s with
  | nil =>
    intro A
    rcases A with _ | ⟨a, A⟩
    · simp [fieldsASCII, List.splitOnP.go]
    · simp [fieldsASCII, List.splitOnP.go]
  | cons b s ih =>
    intro A
    by_cases hf : asciiSpace b = true
    · have h0 := ih []
      simp only [List.isEmpty_nil, if_true, List.reverse_nil] at h0
      rcases A with _ | ⟨a, A⟩
      · simp [fieldsASCII, List.splitOnP.go, hf, h0]
      · simp [fieldsASCII, List.splitOnP.go, hf, h0]
    · have h1 := ih (A ++ [b])
      simp only [List.isEmpty_eq_true, List.append_eq_nil, List.cons_ne_nil, and_false,
        if_false, List.reverse_append, List.reverse_cons, List.reverse_nil, List.nil_append,
        List.singleton_append] at h1
      rcases A with _ | ⟨a, A⟩
      · simp only [List.nil_append] at h1
        simp [fieldsASCII, List.splitOnP.go, hf, h1]
      · simp only [List.reverse_cons] at h1
        simp only [fieldsASCII, List.splitOnP.go, hf, List.reverse_cons, List.isEmpty_cons] at h1 ⊢
        simpa using h1

/-- On a string of ASCII bytes `strings.Fields` is the byte-level split. -/
theorem Fields_ascii (s : Bytes) (h : ∀ b ∈ s, b < utf8.RuneSelf) : Fields s = asciiTokens s := by
  have hany : s.any (fun b => decide (utf8.RuneSelf ≤ b)) = false := by
    rw [List.any_eq_false]
    intro b hb
    have := h b hb
    simp only [decide_eq_true_eq]; omega
  have h0 := fieldsASCII_splitOnP s []
  simp only [List.isEmpty_nil, if_true, List.reverse_nil] at h0
  simp only [Fields, hany, asciiTokens, List.splitOnP]
  simpa using h0

/-- The pieces of the split, put back together with the white-space runes
between them, are the runes of the string, and these make up the string: the
tokens are taken from `s` in the order of `s`. -/
theorem whitespace_split_covers (s : Bytes) :
    (List.flatten (List.zipWith (fun run sep => run ++ sep)
        ((utf8.runes s).splitOnP (fun c => unicode.IsSpace c.1))
        ((((utf8.runes s).filter (fun c => unicode.IsSpace c.1)).map fun c => [c])
          ++ [[]]))).flatMap Prod.snd = s := by
  rw [List.splitOnP_spec, utf8.runes_flatMap]

end strings


/-! ## Lemmas on event traces -/

section traces

variable {τ : Type}

theorem sent_append (a b : List (Event τ)) : sent (a ++ b) = sent a ++ sent b := by
  induction a with
  | nil => rfl
  | cons e a ih => cases e <;> simp [sent, ih]

theorem acks_append (a b : List (Event τ)) : acks (a ++ b) = acks a ++ acks b := by
  induction a with
  | nil => rfl
  | cons e a ih => cases e <;> simp [acks, ih]

theorem sent_sends (l : List Bytes) :
    sent (l.map (fun x => (Event.send (Item.str x) : Event τ))) = l.map Item.str := by
  induction l with
  | nil => rfl
  | cons x l ih => simp [sent, ih]

theorem acks_str_sends (l : List Bytes) :
    acks (l.map (fun x => (Event.send (Item.str x) : Event τ))) = [] := by
  induction l with
  | nil => rfl
  | cons x l ih => simp [acks, ih]

end traces

namespace rabbitmq

variable {τ : Type}

theorem sent_feedLoop (ds : List Delivery) :
    sent (feedLoop ds : List (Event τ))
      = (ds.flatMap (fun d => strings.Fields d.Body)).map Item.str := by
  induction ds with
  | nil => rfl
  | cons d ds ih =>
    simp only [feedLoop, sent, sent_append, sent_sends, ih, List.flatMap_cons, List.map_append]

theorem acks_feedLoop (ds : List Delivery) :
    acks (feedLoop ds : List (Event τ)) = ds.map (fun d => (d.DeliveryTag, false)) := by
  induction ds with
  | nil => rfl
  | cons d ds ih =>
    simp only [feedLoop, acks, acks_append, acks_str_sends, ih, List.nil_append, List.map_cons]

theorem take_tail_quiet (k : Nat) :
    acks (([Event.close, Event.connClose, Event.done] : List (Event τ)).take k) = [] ∧
    sent (([Event.close, Event.connClose, Event.done] : List (Event τ)).take k) = [] := by
  rcases k with _ | _ | _ | _ | k <;> simp [acks, sent]

theorem acks_take_sends (l : List Bytes) (k : Nat) :
    acks ((l.map (fun x => (Event.send (Item.str x) : Event τ))).take k) = [] := by
  rw [← List.map_take]; exact acks_str_sends _

theorem sent_take_sends (l : List Bytes) (k : Nat) :
    (sent ((l.map (fun x => (Event.send (Item.str x) : Event τ))).take k)).length
      = min k l.length := by
  rw [← List.map_take, sent_sends]; simp

theorem tokensBefore_zero (ds : List Delivery) : tokensBefore ds 0 = 0 := by
  simp [tokensBefore]

theorem tokensBefore_succ (d : Delivery) (ds : List Delivery) (i : Nat) :
    tokensBefore (d :: ds) (i + 1) = (strings.Fields d.Body).length + tokensBefore ds i := by
  simp [tokensBefore]

theorem take_feedLoop_cons (d : Delivery) (ds : List Delivery) (tl : List (Event τ)) (k : Nat) :
    (feedLoop (d :: ds) ++ tl).take (k + 1) =
      Event.ack d.DeliveryTag false ::
        (((strings.Fields d.Body).map (fun x => (Event.send (Item.str x) : Event τ))).take k
          ++ (feedLoop ds ++ tl).take (k - (strings.Fields d.Body).length)) := by
  simp [feedLoop, List.take_append_eq_append_take]

/-- The order of acknowledgements and sends at every point of the feed loop. -/
theorem feedLoop_order (ds : List Delivery) :
    ∀ k i,
      (tokensBefore ds i <
          (sent ((feedLoop ds ++ [Event.close, Event.connClose, Event.done]
            : List (Event τ)).take k)).length →
        i < (acks ((feedLoop ds ++ [Event.close, Event.connClose, Event.done]
            : List (Event τ)).take k)).length) ∧
      (i < (acks ((feedLoop ds ++ [Event.close, Event.connClose, Event.done]
            : List (Event τ)).take k)).length →
        tokensBefore ds i ≤
          (sent ((feedLoop ds ++ [Event.close, Event.connClose, Event.done]
            : List (Event τ)).take k)).length) := by
  induction ds with
  | nil =>
    intro k i
    have h := @take_tail_quiet τ k
    simp only [feedLoop, List.nil_append, h.1, h.2, List.length_nil]
    constructor <;> intro h' <;> omega
  | cons d ds ih =>
    intro k i
    rcases k with _ | k
    · simp only [List.take_zero, acks, sent, List.length_nil]
      constructor <;> intro h' <;> omega
    · rw [take_feedLoop_cons]
      simp only [acks, sent, sent_append, acks_append, acks_take_sends, List.nil_append,
        List.length_cons, List.length_append, sent_take_sends]
      rcases i with _ | j
      · rw [tokensBefore_zero]
        constructor <;> intro h' <;> omega
      · rw [tokensBefore_succ]
        have hih := ih (k - (strings.Fields d.Body).length) j
        by_cases hk : k < (strings.Fields d.Body).length
        · have h0 : k - (strings.Fields d.Body).length = 0 := by omega
          simp only [h0, List.take_zero, acks, sent, List.length_nil] at hih ⊢
          constructor <;> intro h' <;> omega
        · constructor <;> intro h' <;> omega

theorem feedLoop_append (a b : List Delivery) :
    (feedLoop (a ++ b) : List (Event τ)) = feedLoop a ++ feedLoop b := by
  induction a with
  | nil => rfl
  | cons d a ih => simp [feedLoop, ih]

/-- Where the acknowledgement of each delivery stands in the run. -/
theorem feedLoop_ack_position (before : List Delivery) (d : Delivery) (after : List Delivery) :
    ∃ pre post : List (Event τ),
      (FeedChannel { domains := before ++ d :: after } : List (Event τ))
          = pre ++ Event.ack d.DeliveryTag false ::
            ((strings.whitespaceTokens d.Body).map (fun x => Event.send (Item.str x)) ++ post)
        ∧ acks pre = before.map (fun e => (e.DeliveryTag, false))
        ∧ sent pre = (before.flatMap (fun e => strings.whitespaceTokens e.Body)).map Item.str
        ∧ acks post = after.map (fun e => (e.DeliveryTag, false))
        ∧ sent post
          = (after.flatMap (fun e => strings.whitespaceTokens e.Body)).map Item.str := by
  have hfun : (fun e : Delivery => strings.whitespaceTokens e.Body)
      = (fun e : Delivery => strings.Fields e.Body) := by
    funext e; exact (strings.Fields_eq_whitespaceTokens e.Body).symm
  refine ⟨feedLoop before, feedLoop after ++ [Event.close, Event.connClose, Event.done],
    ?_, ?_, ?_, ?_, ?_⟩
  · rw [← strings.Fields_eq_whitespaceTokens]
    simp [FeedChannel, feedLoop_append, feedLoop]
  · exact acks_feedLoop before
  · rw [hfun]; exact sent_feedLoop before
  · rw [acks_append, acks_feedLoop]; simp [acks]
  · rw [hfun, sent_append, sent_feedLoop]; simp [sent]

end rabbitmq


/-! ## Lemmas on closes, completion signals and fatal exits -/

section counting

variable {τ : Type}

theorem countP_token_sends {α : Type} (p : Event τ → Bool) (f : α → Item τ) (l : List α)
    (hp : ∀ x, p (Event.send x) = false) :
    (l.map (fun x => Event.send (f x))).countP p = 0 := by
  induction l with
  | nil => rfl
  | cons x l ih => simp [List.countP_cons, ih, hp]

theorem any_token_sends {α : Type} (p : Event τ → Bool) (f : α → Item τ) (l : List α)
    (hp : ∀ x, p (Event.send x) = false) :
    (l.map (fun x => Event.send (f x))).any p = false := by
  induction l with
  | nil => rfl
  | cons x l ih => simp [ih, hp]

/-- A run made of a part without closes followed by a part without sends has
no send after a close. -/
theorem noSendAfterClose_append (body tail : List (Event τ))
    (hb : ∀ e ∈ body, e.isClose = false) (ht : ∀ e ∈ tail, e.isSend = false) :
    NoSendAfterClose (body ++ tail) := by
  intro pre post heq e he
  rcases List.append_eq_append_iff.mp heq with ⟨a, hpre, htail⟩ | ⟨c, hbody, hclose⟩
  · apply ht
    rw [htail]
    exact List.mem_append_right _ (List.mem_cons_of_mem _ he)
  · rcases c with _ | ⟨x, c⟩
    · simp only [List.nil_append] at hclose
      apply ht
      rw [← hclose]
      exact List.mem_cons_of_mem _ he
    · simp only [List.cons_append, List.cons.injEq] at hclose
      have hx : x ∈ body := by
        rw [hbody]
        exact List.mem_append_right _ (List.mem_cons_self _ _)
      have := hb x hx
      rw [← hclose.1] at this
      simp [Event.isClose] at this

theorem isClose_sends {α : Type} (f : α → Item τ) (l : List α) :
    ∀ e ∈ l.map (fun x => (Event.send (f x) : Event τ)), e.isClose = false := by
  intro e he
  obtain ⟨x, _, rfl⟩ := List.mem_map.mp he
  rfl

end counting

namespace rabbitmq

variable {τ : Type}

theorem feedLoop_quiet (ds : List Delivery) :
    (∀ e ∈ (feedLoop ds : List (Event τ)), e.isClose = false ∧ e.isDone = false
      ∧ e.isFatal = false) := by
  induction ds with
  | nil => intro e he; cases he
  | cons d ds ih =>
    intro e he
    simp only [feedLoop, List.mem_cons, List.mem_append, List.mem_map] at he
    rcases he with rfl | ⟨x, _, rfl⟩ | he
    · exact ⟨rfl, rfl, rfl⟩
    · exact ⟨rfl, rfl, rfl⟩
    · exact ih e he

theorem queue_FeedChannel_counts (h : InputHandler) :
    closes (FeedChannel h : List (Event τ)) = 1 ∧ dones (FeedChannel h : List (Event τ)) = 1
      ∧ aborted (FeedChannel h : List (Event τ)) = false := by
  have hq := @feedLoop_quiet τ h.domains
  refine ⟨?_, ?_, ?_⟩
  · simp only [closes, FeedChannel, List.countP_append]
    rw [List.countP_eq_zero.mpr (fun e he => by simp [(hq e he).1])]
    rfl
  · simp only [dones, FeedChannel, List.countP_append]
    rw [List.countP_eq_zero.mpr (fun e he => by simp [(hq e he).2.1])]
    rfl
  · simp only [aborted, FeedChannel, List.any_append, Bool.or_eq_false_iff]
    refine ⟨?_, rfl⟩
    rw [List.any_eq_false]
    intro e he
    simp [(hq e he).2.2]

theorem queue_FeedChannel_noSendAfterClose (h : InputHandler) :
    NoSendAfterClose (FeedChannel h : List (Event τ)) := by
  apply noSendAfterClose_append
  · intro e he; exact (feedLoop_quiet h.domains e he).1
  · intro e he
    simp only [List.mem_cons, List.mem_singleton, List.not_mem_nil, or_false] at he
    rcases he with rfl | rfl | rfl <;> rfl

end rabbitmq

namespace file

variable {τ : Type}

/-- The three shapes a run of the file source can take. -/
theorem FeedChannel_shape (h : InputHandler) (os : OS τ) (zonefileInput : Bool) :
    (∃ err, h.openInput os = .error err ∧
      h.FeedChannel os zonefileInput = [Event.fatal "unable to open input file:" err]) ∨
    (∃ (f : bufio.Reader) (items : List (Item τ)), h.openInput os = .ok f ∧
      (zonefileInput = true ∨ (bufio.scan f).2 = none) ∧
      h.FeedChannel os zonefileInput
        = items.map (fun x => Event.send x) ++ [Event.close, Event.done]) ∨
    (∃ (f : bufio.Reader) (lines : List Bytes) (err : String),
      h.openInput os = .ok f ∧ zonefileInput = false ∧
      (bufio.scan f).2 = some err ∧
      h.FeedChannel os zonefileInput
        = lines.map (fun x => Event.send (Item.str x))
          ++ [Event.fatal "input unable to read file" err]) := by
  unfold InputHandler.FeedChannel
  rcases hopen : h.openInput os with err | f
  · exact Or.inl ⟨err, rfl, rfl⟩
  · right
    rcases zonefileInput with _ | _
    · rcases hs : bufio.scan f with ⟨lines, _ | err⟩
      · left
        refine ⟨f, lines.map Item.str, rfl, Or.inr (by rw [hs]), ?_⟩
        simp [hs]
      · right
        exact ⟨f, lines, err, rfl, rfl, by rw [hs], by simp [hs]⟩
    · left
      refine ⟨f, (os.ParseZone f "." h.filepath).map Item.token, rfl, Or.inl rfl, ?_⟩
      simp

end file


/-! ## Lemmas on the line scanner -/

namespace bufio

theorem scanLoop_cons (rerr : Option String) (line : Bytes) (b : Nat) (rest : Bytes) :
    scanLoop rerr line (b :: rest) =
      if b = 0x0A then
        (dropCR line :: (scanLoop rerr [] rest).1, (scanLoop rerr [] rest).2)
      else if MaxScanTokenSize ≤ line.length + 1 then ([], some ErrTooLong)
      else scanLoop rerr (line ++ [b]) rest := by
  rw [scanLoop]

theorem scanLoop_line (rerr : Option String) (line : Bytes) :
    ∀ (acc rest : Bytes), (∀ b ∈ line, b ≠ 0x0A) →
      acc.length + line.length < MaxScanTokenSize →
      scanLoop rerr acc (line ++ 0x0A :: rest)
        = (dropCR (acc ++ line) :: (scanLoop rerr [] rest).1, (scanLoop rerr [] rest).2) := by
  induction line with
  | nil =>
    intro acc rest _ _
    simp [scanLoop]
  | cons b line ih =>
    intro acc rest hb hlen
    have hb0 : b ≠ 0x0A := hb b (List.mem_cons_self _ _)
    have hlt : ¬ MaxScanTokenSize ≤ acc.length + 1 := by
      simp only [List.length_cons] at hlen; omega
    rw [List.cons_append, scanLoop_cons, if_neg hb0, if_neg hlt]
    rw [ih (acc ++ [b]) rest (fun c hc => hb c (List.mem_cons_of_mem _ hc))
      (by simp only [List.length_append, List.length_cons, List.length_nil] at hlen ⊢; omega)]
    simp

/-- Lines free of line feeds and shorter than the buffer, each followed by a
line feed, are delivered one token per line, a terminal carriage return
dropped, without error. -/
theorem scan_lines (L : List Bytes)
    (hL : ∀ l ∈ L, (∀ b ∈ l, b ≠ 0x0A) ∧ l.length < MaxScanTokenSize) :
    scan { data := L.flatMap (fun l => l ++ [0x0A]), err := none } = (L.map dropCR, none) := by
  unfold scan
  simp only
  induction L with
  | nil => simp [scanLoop]
  | cons l L ih =>
    have hl := hL l (List.mem_cons_self _ _)
    rw [List.flatMap_cons, List.append_assoc, List.singleton_append,
      scanLoop_line none l [] _ hl.1 (by simpa using hl.2),
      ih (fun x hx => hL x (List.mem_cons_of_mem _ hx))]
    simp

theorem dropCR_of_no_cr (l : Bytes) (h : l.getLast? ≠ some 0x0D) : dropCR l = l := by
  simp [dropCR, h]

/-- A line that fills the buffer without a line feed stops the scan with
`ErrTooLong` and yields no token. -/
theorem scanLoop_too_long (rerr : Option String) (line : Bytes) :
    ∀ (acc rest : Bytes), (∀ b ∈ line, b ≠ 0x0A) →
      MaxScanTokenSize ≤ acc.length + line.length → acc.length < MaxScanTokenSize →
      scanLoop rerr acc (line ++ rest) = ([], some ErrTooLong) := by
  induction line with
  | nil =>
    intro acc rest _ h1 h2
    simp only [List.length_nil] at h1; omega
  | cons b line ih =>
    intro acc rest hb h1 h2
    have hb0 : b ≠ 0x0A := hb b (List.mem_cons_self _ _)
    rw [List.cons_append, scanLoop_cons, if_neg hb0]
    by_cases hlt : MaxScanTokenSize ≤ acc.length + 1
    · rw [if_pos hlt]
    · rw [if_neg hlt]
      apply ih (acc ++ [b]) rest (fun c hc => hb c (List.mem_cons_of_mem _ hc))
      · simp only [List.length_append, List.length_cons, List.length_nil] at h1 ⊢; omega
      · simp only [List.length_append, List.length_cons, List.length_nil]; omega

end bufio

/-! ## Lemmas on the file sink -/

namespace file

theorem writeAt_end (W C d : Bytes) :
    writeAt (W ++ C.drop W.length) W.length d
      = (W ++ d) ++ C.drop (W ++ d).length := by
  unfold writeAt
  have h1 : (W ++ C.drop W.length).take W.length = W := List.take_left _ _
  have h2 : W.length - (W ++ C.drop W.length).length = 0 := by
    simp only [List.length_append]; omega
  have h3 : (W ++ C.drop W.length).drop (W.length + d.length) = C.drop (W ++ d).length := by
    rw [List.drop_append, List.drop_drop, List.length_append]
  rw [h1, h2, h3]
  simp

/-- On a file holding `C`, opened at offset 0, the loop leaves the written
bytes followed by the bytes of `C` beyond their length. -/
theorem writeLoop_spec (C : Bytes) (results : List Bytes) :
    ∀ W : Bytes, writeLoop (W ++ C.drop W.length) W.length results
      = ((W ++ results.flatMap (fun n => n ++ [0x0A]))
          ++ C.drop (W ++ results.flatMap (fun n => n ++ [0x0A])).length,
         (W ++ results.flatMap (fun n => n ++ [0x0A])).length) := by
  induction results with
  | nil => intro W; simp [writeLoop]
  | cons n rest ih =>
    intro W
    simp only [writeLoop]
    rw [writeAt_end, ← List.length_append, ih (W ++ (n ++ [0x0A]))]
    simp

theorem writeLoop_zero (C : Bytes) (results : List Bytes) :
    (writeLoop C 0 results).1
      = results.flatMap (fun n => n ++ [0x0A])
          ++ C.drop (results.flatMap (fun n => n ++ [0x0A])).length := by
  have h := writeLoop_spec C results []
  simp only [List.nil_append, List.length_nil, List.drop_zero] at h
  rw [h]

theorem writeStream_spec (results : List Bytes) :
    ∀ out : Bytes, writeStream out results = out ++ results.flatMap (fun n => n ++ [0x0A]) := by
  induction results with
  | nil => intro out; simp [writeStream]
  | cons n rest ih => intro out; simp [writeStream, ih]

end file


/-! ## The queue source: acknowledgement and token stream -/

/-- C1, as stated, fails: with one delivery of body `x.com y.com`, after the
first event of the run the delivery is acknowledged while none of its two
tokens has been sent. -/
theorem ack_after_enqueue_refuted :
    ¬ rabbitmq.AckAfterEnqueue examples.oneDelivery.domains
        (rabbitmq.FeedChannel examples.oneDelivery : List (Event Unit)) := by
  intro h
  have h1 := h 1 0 (by decide) (by decide)
  revert h1
  decide

/-- C1, amended: the queue source acknowledges each delivery on receipt. In a
run over any finite stream of deliveries, every delivery is acknowledged with
its own tag and `multiple = false`, after exactly the acknowledgements and
tokens of the earlier deliveries, and its acknowledgement is directly followed
by the sends of the tokens of its body; at every point of the run a delivery
one of whose tokens has been sent is already acknowledged, and an acknowledged
delivery has all tokens of the earlier deliveries sent. -/
theorem ack_on_receipt {τ : Type} (h : rabbitmq.InputHandler) :
    rabbitmq.AckOnReceipt h.domains (rabbitmq.FeedChannel h : List (Event τ)) := by
  constructor
  · intro before d after hds
    have hh : h = { domains := before ++ d :: after } := by
      cases h; simp only at hds; rw [hds]
    rw [hh]
    exact rabbitmq.feedLoop_ack_position before d after
  · intro k i _
    exact rabbitmq.feedLoop_order h.domains k i

/-- C4: the items the queue source sends are the concatenation, in delivery
order, of the white-space-delimited tokens of the bodies, each body split at
its white-space runes with the empty pieces dropped (for a body of ASCII bytes:
split at tab, line feed, vertical tab, form feed, carriage return and space);
every item is non-empty and free of white space; a body that is empty or all
white space contributes no item; one delivery `x.com y.com` yields `x.com` then
`y.com`. -/
theorem queue_token_stream {τ : Type} (h : rabbitmq.InputHandler) :
    sent (rabbitmq.FeedChannel h : List (Event τ))
        = (h.domains.flatMap (fun d => strings.whitespaceTokens d.Body)).map Item.str
      ∧ (∀ d ∈ h.domains, (∀ b ∈ d.Body, b < utf8.RuneSelf) →
          strings.whitespaceTokens d.Body = strings.asciiTokens d.Body)
      ∧ (∀ d ∈ h.domains, ∀ x ∈ strings.whitespaceTokens d.Body,
          x ≠ [] ∧ unicode.NoSpace x)
      ∧ (∀ d ∈ h.domains, unicode.AllSpace d.Body → strings.whitespaceTokens d.Body = [])
      ∧ sent (rabbitmq.FeedChannel examples.oneDelivery : List (Event τ))
          = [Item.str (ascii "x.com"), Item.str (ascii "y.com")] := by
  have hfun : (fun d : rabbitmq.Delivery => strings.whitespaceTokens d.Body)
      = (fun d : rabbitmq.Delivery => strings.Fields d.Body) := by
    funext d; exact (strings.Fields_eq_whitespaceTokens d.Body).symm
  have hsent : ∀ g : rabbitmq.InputHandler, sent (rabbitmq.FeedChannel g : List (Event τ))
      = (g.domains.flatMap (fun d => strings.Fields d.Body)).map Item.str := by
    intro g
    rw [rabbitmq.FeedChannel, sent_append, rabbitmq.sent_feedLoop]
    simp [sent]
  refine ⟨by rw [hfun]; exact hsent h, ?_, ?_, ?_, ?_⟩
  · intro d _ hb
    rw [← strings.Fields_eq_whitespaceTokens]
    exact strings.Fields_ascii d.Body hb
  · intro d _ x hx
    rw [← strings.Fields_eq_whitespaceTokens, strings.Fields_eq_FieldsFunc] at hx
    exact strings.FieldsFunc_items d.Body unicode.IsSpace x hx
  · intro d _ hall
    rw [← strings.Fields_eq_whitespaceTokens, strings.Fields_eq_FieldsFunc]
    exact strings.fieldsLoop_all unicode.IsSpace _ hall
  · rw [hsent]
    have hf : strings.Fields (ascii "x.com y.com") = [ascii "x.com", ascii "y.com"] := by
      decide
    simp [examples.oneDelivery, hf]

/-- C8: the acknowledgements issued during a run are, in order, one
single-message acknowledgement (`multiple = false`) per delivery of the
stream, whatever its body, and nothing else. -/
theorem each_delivery_acked_once {τ : Type} (h : rabbitmq.InputHandler) :
    acks (rabbitmq.FeedChannel h : List (Event τ))
        = h.domains.map (fun d => (d.DeliveryTag, false))
      ∧ (acks (rabbitmq.FeedChannel h : List (Event τ))).length = h.domains.length := by
  have hacks : acks (rabbitmq.FeedChannel h : List (Event τ))
      = h.domains.map (fun d => (d.DeliveryTag, false)) := by
    rw [rabbitmq.FeedChannel, acks_append, rabbitmq.acks_feedLoop]
    simp [acks]
  exact ⟨hacks, by rw [hacks, List.length_map]⟩


/-! ## Closure and completion signal -/

section shapes

variable {τ : Type}

theorem normal_run_counts (items : List (Item τ)) :
    closes (items.map (fun x => Event.send x) ++ [Event.close, Event.done]) = 1
      ∧ dones (items.map (fun x => Event.send x) ++ [Event.close, Event.done]) = 1
      ∧ aborted (items.map (fun x => Event.send x) ++ [Event.close, Event.done]) = false
      ∧ NoSendAfterClose (items.map (fun x => Event.send x) ++ [Event.close, Event.done]) := by
  refine ⟨?_, ?_, ?_, ?_⟩
  · rw [closes, List.countP_append, countP_token_sends _ _ _ (fun _ => rfl)]; rfl
  · rw [dones, List.countP_append, countP_token_sends _ _ _ (fun _ => rfl)]; rfl
  · rw [aborted, List.any_append, any_token_sends _ _ _ (fun _ => rfl)]; rfl
  · apply noSendAfterClose_append
    · exact isClose_sends _ _
    · intro e he
      simp only [List.mem_cons, List.mem_singleton, List.not_mem_nil, or_false] at he
      rcases he with rfl | rfl <;> rfl

theorem fatal_run_counts (items : List (Item τ)) (msg err : String) :
    closes (items.map (fun x => Event.send x) ++ [Event.fatal msg err]) = 0
      ∧ dones (items.map (fun x => Event.send x) ++ [Event.fatal msg err]) = 0
      ∧ aborted (items.map (fun x => Event.send x) ++ [Event.fatal msg err]) = true
      ∧ NoSendAfterClose (items.map (fun x => Event.send x) ++ [Event.fatal msg err]) := by
  refine ⟨?_, ?_, ?_, ?_⟩
  · rw [closes, List.countP_append, countP_token_sends _ _ _ (fun _ => rfl)]; rfl
  · rw [dones, List.countP_append, countP_token_sends _ _ _ (fun _ => rfl)]; rfl
  · rw [aborted, List.any_append, any_token_sends _ _ _ (fun _ => rfl)]; rfl
  · apply noSendAfterClose_append
    · exact isClose_sends _ _
    · intro e he
      simp only [List.mem_singleton] at he
      subst he; rfl

end shapes

namespace file

variable {τ : Type}

/-- Closes, completion signals and fatal exit of every run of the file source. -/
theorem FeedChannel_counts (h : InputHandler) (os : OS τ) (zonefileInput : Bool) :
    (closes (h.FeedChannel os zonefileInput)
        = if aborted (h.FeedChannel os zonefileInput) then 0 else 1)
      ∧ (dones (h.FeedChannel os zonefileInput)
        = if aborted (h.FeedChannel os zonefileInput) then 0 else 1)
      ∧ NoSendAfterClose (h.FeedChannel os zonefileInput)
      ∧ (aborted (h.FeedChannel os zonefileInput) = false ↔
          ∃ f, h.openInput os = .ok f ∧ (zonefileInput = true ∨ (bufio.scan f).2 = none)) := by
  rcases FeedChannel_shape h os zonefileInput with
    ⟨err, hopen, htr⟩ | ⟨f, items, hopen, hmode, htr⟩ | ⟨f, lines, err, hopen, hz, hscan, htr⟩
  · have hc := fatal_run_counts ([] : List (Item τ)) "unable to open input file:" err
    simp only [List.map_nil, List.nil_append] at hc
    rw [htr]
    refine ⟨by rw [hc.1, hc.2.2.1]; rfl, by rw [hc.2.1, hc.2.2.1]; rfl, hc.2.2.2, ?_⟩
    rw [hc.2.2.1, hopen]
    constructor
    · intro h0; cases h0
    · rintro ⟨f, hf, _⟩; cases hf
  · have hc := normal_run_counts items
    rw [htr]
    refine ⟨by rw [hc.1, hc.2.2.1]; rfl, by rw [hc.2.1, hc.2.2.1]; rfl, hc.2.2.2, ?_⟩
    rw [hc.2.2.1]
    exact ⟨fun _ => ⟨f, hopen, hmode⟩, fun _ => rfl⟩
  · have hc := fatal_run_counts (lines.map (Item.str : Bytes → Item τ))
      "input unable to read file" err
    rw [List.map_map] at hc
    have htr2 : h.FeedChannel os zonefileInput
        = lines.map ((fun x => Event.send x) ∘ Item.str)
          ++ [Event.fatal "input unable to read file" err] := htr
    rw [htr2]
    refine ⟨by rw [hc.1, hc.2.2.1]; rfl, by rw [hc.2.1, hc.2.2.1]; rfl, hc.2.2.2, ?_⟩
    rw [hc.2.2.1, hopen]
    constructor
    · intro h0; cases h0
    · rintro ⟨g, hg, hmode⟩
      cases hg
      rcases hmode with hm | hm
      · rw [hz] at hm; cases hm
      · rw [hscan] at hm; cases hm

/-- Completion signal and fatal exit of every run of the file sink. -/
theorem WriteResults_counts (h : OutputHandler) (w : World) (results : List Bytes) :
    (dones ((h.WriteResults w results).2 : List (Event τ))
        = if aborted ((h.WriteResults w results).2 : List (Event τ)) then 0 else 1)
      ∧ (aborted ((h.WriteResults w results).2 : List (Event τ)) = true ↔
          (¬ (h.filepath = "" ∨ h.filepath = "-") ∧ (w.openErr h.filepath).isSome = true)) := by
  unfold OutputHandler.WriteResults
  by_cases hp : h.filepath = "" ∨ h.filepath = "-"
  · simp only [hp, if_true, not_true_eq_false, false_and, iff_false]
    exact ⟨rfl, by simp [aborted, Event.isFatal]⟩
  · rcases ho : w.openErr h.filepath with _ | err
    · simp only [hp, if_false, ho, not_false_eq_true, true_and, Option.isSome_none]
      exact ⟨rfl, by simp [aborted, Event.isFatal]⟩
    · simp only [hp, if_false, ho, not_false_eq_true, true_and, Option.isSome_some]
      exact ⟨rfl, by simp [aborted, Event.isFatal]⟩

end file

/-- C2, as stated, fails: when the named output file cannot be opened the
sink exits through `log.Fatal` without decrementing the completion signal. -/
theorem completion_signal_missed_on_open_failure :
    dones ((file.OutputHandler.WriteResults { filepath := "out.txt" }
      examples.readOnlyDisk [ascii "r1"]).2 : List (Event Unit)) ≠ 1 := by
  decide

/-- C2, amended: every run of the file source, of the file sink and of the
queue source that is not ended by `log.Fatal` decrements the completion
signal exactly once; a run ended by `log.Fatal` (the named file cannot be
opened, or the line scanner reports an error) does not decrement it; the
feed loop of the queue source is never ended by `log.Fatal`. -/
theorem completion_signal_discipline {τ : Type} (h : file.InputHandler) (os : file.OS τ)
    (zonefileInput : Bool) (oh : file.OutputHandler) (w : file.World) (results : List Bytes)
    (rh : rabbitmq.InputHandler) :
    (dones (h.FeedChannel os zonefileInput)
        = if aborted (h.FeedChannel os zonefileInput) then 0 else 1)
      ∧ (aborted (h.FeedChannel os zonefileInput) = false ↔
          ∃ f, h.openInput os = .ok f ∧ (zonefileInput = true ∨ (bufio.scan f).2 = none))
      ∧ (dones ((oh.WriteResults w results).2 : List (Event τ))
        = if aborted ((oh.WriteResults w results).2 : List (Event τ)) then 0 else 1)
      ∧ (aborted ((oh.WriteResults w results).2 : List (Event τ)) = true ↔
          (¬ (oh.filepath = "" ∨ oh.filepath = "-") ∧ (w.openErr oh.filepath).isSome = true))
      ∧ dones (rabbitmq.FeedChannel rh : List (Event τ)) = 1
      ∧ aborted (rabbitmq.FeedChannel rh : List (Event τ)) = false := by
  have hf := file.FeedChannel_counts h os zonefileInput
  have hw := @file.WriteResults_counts τ oh w results
  have hr := @rabbitmq.queue_FeedChannel_counts τ rh
  exact ⟨hf.2.1, hf.2.2.2, hw.1, hw.2, hr.2.1, hr.2.2⟩

/-- C3, as stated, fails: when the named input file cannot be opened the file
source exits through `log.Fatal` and the channel is never closed. -/
theorem closure_missed_on_open_failure :
    ¬ (closes (file.InputHandler.FeedChannel { filepath := "missing.txt" }
          examples.noFiles false) = 1
        ∧ NoSendAfterClose (file.InputHandler.FeedChannel { filepath := "missing.txt" }
          examples.noFiles false)) := by
  intro h
  exact absurd h.1 (by decide)

/-- C3, amended: every run of either source that is not ended by `log.Fatal`
closes the output channel exactly once; a run of the file source ended by
`log.Fatal` never closes it; in every run no send follows a close; the feed
loop of the queue source is never ended by `log.Fatal`. -/
theorem closure_invariant {τ : Type} (h : file.InputHandler) (os : file.OS τ)
    (zonefileInput : Bool) (rh : rabbitmq.InputHandler) :
    (closes (h.FeedChannel os zonefileInput)
        = if aborted (h.FeedChannel os zonefileInput) then 0 else 1)
      ∧ NoSendAfterClose (h.FeedChannel os zonefileInput)
      ∧ (aborted (h.FeedChannel os zonefileInput) = false ↔
          ∃ f, h.openInput os = .ok f ∧ (zonefileInput = true ∨ (bufio.scan f).2 = none))
      ∧ closes (rabbitmq.FeedChannel rh : List (Event τ)) = 1
      ∧ NoSendAfterClose (rabbitmq.FeedChannel rh : List (Event τ))
      ∧ aborted (rabbitmq.FeedChannel rh : List (Event τ)) = false := by
  have hf := file.FeedChannel_counts h os zonefileInput
  have hr := @rabbitmq.queue_FeedChannel_counts τ rh
  exact ⟨hf.1, hf.2.2.1, hf.2.2.2, hr.1, rabbitmq.queue_FeedChannel_noSendAfterClose rh, hr.2.2⟩


/-! ## The file source in line mode -/

/-- C5, as stated, fails: a line that ends in a carriage return is sent
without it. -/
theorem line_with_carriage_return_altered :
    file.InputHandler.FeedChannel { filepath := "-" } examples.crLine false
      ≠ [ascii "a.com\r"].map (fun l => Event.send (Item.str l))
          ++ [Event.close, Event.done] := by
  decide

/-- C5, amended: for every finite sequence `L` of lines, each free of line
feeds, shorter than the scanner buffer of 65536 bytes and not ending in a
carriage return, each terminated by a line feed in the input stream, the file
source in line mode sends exactly the elements of `L`, in order, and then
closes the channel. -/
theorem file_lines_in_order {τ : Type} (h : file.InputHandler) (os : file.OS τ)
    (L : List Bytes)
    (hopen : h.openInput os = .ok { data := L.flatMap (fun l => l ++ [0x0A]), err := none })
    (hL : ∀ l ∈ L, (∀ b ∈ l, b ≠ 0x0A) ∧ l.length < 65536 ∧ l.getLast? ≠ some 0x0D) :
    h.FeedChannel os false
      = L.map (fun l => Event.send (Item.str l)) ++ [Event.close, Event.done] := by
  have hscan := bufio.scan_lines L (fun l hl => ⟨(hL l hl).1, (hL l hl).2.1⟩)
  have hmap : L.map bufio.dropCR = L := by
    conv_rhs => rw [← List.map_id L]
    apply List.map_congr_left
    intro l hl
    exact bufio.dropCR_of_no_cr l (hL l hl).2.2
  rw [hmap] at hscan
  simp [file.InputHandler.FeedChannel, hopen, hscan]

/-- The scenario of C5: lines `a.com`, `b.com` on standard input. -/
theorem file_lines_in_order_witness :
    file.InputHandler.FeedChannel { filepath := "-" } examples.twoLines false
      = [Event.send (Item.str (ascii "a.com")), Event.send (Item.str (ascii "b.com")),
          Event.close, Event.done] :=
  file_lines_in_order { filepath := "-" } examples.twoLines [ascii "a.com", ascii "b.com"]
    rfl (by decide)

/-! ## The file sink -/

/-- C6: writing the results `r1 … rn` to a named file that did not exist
leaves it holding `r1 ++ "\n" ++ … ++ rn ++ "\n"` and nothing else, every
other file and standard output untouched; two such runs over the same
sequence leave identical contents. -/
theorem sink_fresh_file {τ : Type} (h : file.OutputHandler) (w : file.World)
    (results : List Bytes) (hname : ¬ (h.filepath = "" ∨ h.filepath = "-"))
    (hopen : w.openErr h.filepath = none) (hfresh : w.files h.filepath = none) :
    ((h.WriteResults w results : file.World × List (Event τ)).1.files h.filepath
        = some (results.flatMap (fun r => r ++ [0x0A])))
      ∧ (∀ p, p ≠ h.filepath →
          (h.WriteResults w results : file.World × List (Event τ)).1.files p = w.files p)
      ∧ (h.WriteResults w results : file.World × List (Event τ)).1.stdout = w.stdout
      ∧ (∀ (h2 : file.OutputHandler) (w2 : file.World),
          ¬ (h2.filepath = "" ∨ h2.filepath = "-") → w2.openErr h2.filepath = none →
          w2.files h2.filepath = none →
          (h2.WriteResults w2 results : file.World × List (Event τ)).1.files h2.filepath
            = (h.WriteResults w results : file.World × List (Event τ)).1.files h.filepath) := by
  have key : ∀ (g : file.OutputHandler) (v : file.World),
      ¬ (g.filepath = "" ∨ g.filepath = "-") → v.openErr g.filepath = none →
      v.files g.filepath = none →
      (g.WriteResults v results : file.World × List (Event τ)).1.files g.filepath
        = some (results.flatMap (fun r => r ++ [0x0A])) := by
    intro g v hg ho hf
    simp [file.OutputHandler.WriteResults, hg, ho, hf, file.writeLoop_zero]
  refine ⟨key h w hname hopen hfresh, ?_, ?_, ?_⟩
  · intro p hp
    simp [file.OutputHandler.WriteResults, hname, hopen, hp]
  · simp [file.OutputHandler.WriteResults, hname, hopen]
  · intro h2 w2 hg ho hf
    rw [key h2 w2 hg ho hf, key h w hname hopen hfresh]

/-- The scenario of C6: `r1`, `r2` written to the fresh file `out.txt`. -/
theorem sink_fresh_file_witness :
    ((file.OutputHandler.WriteResults { filepath := "out.txt" } examples.emptyDisk
        [ascii "r1", ascii "r2"] : file.World × List (Event Unit)).1.files "out.txt"
      = some (ascii "r1\nr2\n")) :=
  (sink_fresh_file { filepath := "out.txt" } examples.emptyDisk [ascii "r1", ascii "r2"]
    (by decide) rfl rfl).1

/-- C7, as stated, fails: on the existing file `out.txt` holding
`0123456789`, writing `r1` overwrites the first three bytes instead of
appending after the last. -/
theorem sink_overwrites_existing_file :
    (file.OutputHandler.WriteResults { filepath := "out.txt" } examples.usedDisk
        [ascii "r1"] : file.World × List (Event Unit)).1.files "out.txt"
      ≠ some (ascii "0123456789" ++ ascii "r1\n") := by
  decide

/-- C7, amended: on a named file that already holds `C`, the sink writes the
lines `r1 ++ "\n" ++ … ++ rn ++ "\n"` from offset 0 over the first bytes of
`C`; the bytes of `C` beyond the written length are left unchanged. -/
theorem sink_existing_file {τ : Type} (h : file.OutputHandler) (w : file.World)
    (results : List Bytes) (C : Bytes) (hname : ¬ (h.filepath = "" ∨ h.filepath = "-"))
    (hopen : w.openErr h.filepath = none) (hold : w.files h.filepath = some C) :
    (h.WriteResults w results : file.World × List (Event τ)).1.files h.filepath
      = some (results.flatMap (fun r => r ++ [0x0A])
          ++ C.drop (results.flatMap (fun r => r ++ [0x0A])).length) := by
  simp [file.OutputHandler.WriteResults, hname, hopen, hold, file.writeLoop_zero]

/-- On `out.txt` holding `0123456789`, writing `r1` leaves `r1`, a line feed
and `3456789`. -/
theorem sink_existing_file_witness :
    (file.OutputHandler.WriteResults { filepath := "out.txt" } examples.usedDisk
        [ascii "r1"] : file.World × List (Event Unit)).1.files "out.txt"
      = some (ascii "r1\n3456789") :=
  sink_existing_file { filepath := "out.txt" } examples.usedDisk [ascii "r1"]
    (ascii "0123456789") (by decide) rfl rfl

/-! ## The queue source: configuration -/

/-- C9 at the failing input: with TLS enabled, the certificate directory
configured as `certs` and the three files present inside it, `getTlsConfig`
looks for the CA certificate at `certscacert.pem`, outside the directory, and
exits through `log.Fatal` with its message that `cacert.pem` is required in
the `certs/` directory. -/
theorem tls_files_missed_in_directory :
    examples.tlsConf.getTlsConfig examples.certsDir
      = ([.readFile "certscacert.pem",
          .fatal "cacert.pem in certs/ directory is required"
            "open certscacert.pem: no such file or directory"], none) := by
  decide

/-- The files `getTlsConfig` reads: the CA certificate from the configured
string `d` directly followed by `cacert.pem`, and the client certificate and
key from `d` directly followed by `cert.pem` and `key.pem`; no separator is
inserted. It reads no other file, and when it returns a configuration it has
read exactly these three files, in this order, and built the configuration
from their contents. -/
theorem tls_material_paths (env : rabbitmq.Env) (c : rabbitmq.rabbitmqConfig) :
    (∀ p, rabbitmq.Call.readFile p ∈ (c.getTlsConfig env).1 →
        p = c.Certs ++ "cacert.pem" ∨ p = c.Certs ++ "cert.pem" ∨ p = c.Certs ++ "key.pem")
      ∧ (c.getTlsConfig env).1.head? = some (.readFile (c.Certs ++ "cacert.pem"))
      ∧ (∀ cfg, (c.getTlsConfig env).2 = some cfg →
          (c.getTlsConfig env).1
              = [.readFile (c.Certs ++ "cacert.pem"), .readFile (c.Certs ++ "cert.pem"),
                  .readFile (c.Certs ++ "key.pem")]
            ∧ ∃ ca certPEM keyPEM cert,
                env.ReadFile (c.Certs ++ "cacert.pem") = .ok ca
                ∧ env.ReadFile (c.Certs ++ "cert.pem") = .ok certPEM
                ∧ env.ReadFile (c.Certs ++ "key.pem") = .ok keyPEM
                ∧ env.X509KeyPair certPEM keyPEM = .ok cert
                ∧ cfg = { RootCAs := [ca], ServerName := c.CAServer, Certificates := [cert] }) := by
  unfold rabbitmq.rabbitmqConfig.getTlsConfig rabbitmq.LoadX509KeyPair
  rcases hca : env.ReadFile (c.Certs ++ "cacert.pem") with e | ca
  · simp
  · rcases hcert : env.ReadFile (c.Certs ++ "cert.pem") with e | certPEM
    · simp
    · rcases hkey : env.ReadFile (c.Certs ++ "key.pem") with e | keyPEM
      · simp
      · rcases hpair : env.X509KeyPair certPEM keyPEM with e | cert
        · simp [hpair]
        · simp [hpair]

/-- C10 at the failing input: on a configuration file holding only the key
`Rabbitmq-Username`, `readConfig` returns a configuration whose password,
address, queue name and queue size are the zero values, and `Initialize`
goes on to dial the broker with them. -/
theorem missing_fields_accepted :
    ({} : rabbitmq.rabbitmqConfig).readConfig examples.userOnly "rabbitmq.yaml"
        = ([.readFile "rabbitmq.yaml"],
            some { User := "guest", Pwd := "", Ip := "", Qname := "", Qsize := 0 })
      ∧ (rabbitmq.Initialize examples.userOnly "rabbitmq.yaml").1
        = [.readFile "rabbitmq.yaml", .dial "amqp://guest:@", .channel,
            .queueDeclare "" true false false false 0, .qos 300 0 false,
            .consume "" "" false false false false] := by
  decide

end zdns
